import Mathlib

/-!
A verification development for the proglog commit-log service.

The Go sources are shallowly embedded: byte sequences become `List Nat`
(each element a byte value), the mutable `store`, `index`, `segment` and
`Log` structs become immutable structures with explicit state passing,
`uint64`/`uint32` arithmetic is `Nat` with explicit `% 2^64` / `% 2^32`
where Go would truncate, and fallible operations return `Option` or a
result carrying an error value.  Buffered writes are modelled as already
flushed: every read in the Go code flushes the buffer first, so buffer
plus file contents are observationally a single byte sequence.
-/

namespace Proglog

/-- Bytes as natural numbers (each `< 256` for real data). -/
abbrev Bytes := List Nat

/-- `lenWidth` from store.go: byte width of the record-length prefix. -/
def lenWidth : Nat := 8

/-- Big-endian 8-byte encoding of a `uint64` (`enc.PutUint64`). -/
def u64be (n : Nat) : Bytes :=
  [n / 2 ^ 56 % 256, n / 2 ^ 48 % 256, n / 2 ^ 40 % 256, n / 2 ^ 32 % 256,
   n / 2 ^ 24 % 256, n / 2 ^ 16 % 256, n / 2 ^ 8 % 256, n % 256]

/-- Big-endian 4-byte encoding of a `uint32` (`enc.PutUint32`). -/
def u32be (n : Nat) : Bytes :=
  [n / 2 ^ 24 % 256, n / 2 ^ 16 % 256, n / 2 ^ 8 % 256, n % 256]

/-- Big-endian decoding (`enc.Uint64` / `enc.Uint32` on a slice). -/
def beVal (bs : Bytes) : Nat := bs.foldl (fun a b => a * 256 + b) 0

/-- Random-access read of `len` bytes at byte offset `pos`. -/
def readAt (file : Bytes) (pos len : Nat) : Bytes := (file.drop pos).take len

/-- In-place overwrite of `bs` at byte offset `pos` (mmap write). -/
def writeBytes (file : Bytes) (pos : Nat) (bs : Bytes) : Bytes :=
  file.take pos ++ bs ++ file.drop (pos + bs.length)

theorem u64be_length (n : Nat) : (u64be n).length = 8 := rfl

theorem u32be_length (n : Nat) : (u32be n).length = 4 := rfl

theorem beVal_u64be (n : Nat) : beVal (u64be n) = n % 2 ^ 64 := by
  simp only [u64be, beVal, List.foldl]
  omega

theorem beVal_u32be (n : Nat) : beVal (u32be n) = n % 2 ^ 32 := by
  simp only [u32be, beVal, List.foldl]
  omega

theorem readAt_append_start (xs ys : Bytes) (k : Nat) :
    readAt (xs ++ ys) xs.length k = ys.take k := by
  simp [readAt]

theorem readAt_append_shift (xs ys : Bytes) (j k : Nat) :
    readAt (xs ++ ys) (xs.length + j) k = readAt ys j k := by
  rw [readAt, readAt, List.drop_append_eq_append_drop,
    List.drop_eq_nil_of_le (by omega)]
  simp

theorem readAt_append_left (xs ys : Bytes) (pos k : Nat)
    (h : pos + k ≤ xs.length) :
    readAt (xs ++ ys) pos k = readAt xs pos k := by
  have hpos : pos ≤ xs.length := by omega
  rw [readAt, readAt, List.drop_append_of_le_length hpos,
    List.take_append_of_le_length (by simp; omega)]

theorem readAt_length (file : Bytes) (pos k : Nat) (h : pos + k ≤ file.length) :
    (readAt file pos k).length = k := by
  simp [readAt]
  omega

theorem writeBytes_length (mm bs : Bytes) (pos : Nat)
    (h : pos + bs.length ≤ mm.length) :
    (writeBytes mm pos bs).length = mm.length := by
  simp [writeBytes]
  omega

theorem readAt_writeBytes_at (mm bs : Bytes) (pos k : Nat)
    (hpos : pos ≤ mm.length) :
    readAt (writeBytes mm pos bs) pos k = (bs ++ mm.drop (pos + bs.length)).take k := by
  have hlen : (mm.take pos).length = pos := by simp; omega
  have h := readAt_append_start (mm.take pos) (bs ++ mm.drop (pos + bs.length)) k
  rw [hlen] at h
  rw [writeBytes, List.append_assoc, h]

theorem readAt_writeBytes_self (mm bs : Bytes) (pos : Nat)
    (hpos : pos + bs.length ≤ mm.length) :
    readAt (writeBytes mm pos bs) pos bs.length = bs := by
  rw [readAt_writeBytes_at mm bs pos bs.length (by omega),
    List.take_append_of_le_length (by omega), List.take_length]

theorem readAt_writeBytes_piece (mm as bs : Bytes) (pos : Nat)
    (hpos : pos + as.length + bs.length ≤ mm.length) :
    readAt (writeBytes mm pos (as ++ bs)) (pos + as.length) bs.length = bs := by
  have hlen : (mm.take pos ++ as).length = pos + as.length := by simp; omega
  have hw : writeBytes mm pos (as ++ bs)
      = (mm.take pos ++ as) ++ (bs ++ mm.drop (pos + (as ++ bs).length)) := by
    simp [writeBytes]
  have h := readAt_append_start (mm.take pos ++ as)
    (bs ++ mm.drop (pos + (as ++ bs).length)) bs.length
  rw [hlen] at h
  rw [hw, h, List.take_append_of_le_length (by omega), List.take_length]

theorem readAt_writeBytes_start (mm as bs : Bytes) (pos : Nat)
    (hpos : pos + as.length + bs.length ≤ mm.length) :
    readAt (writeBytes mm pos (as ++ bs)) pos as.length = as := by
  rw [readAt_writeBytes_at mm (as ++ bs) pos as.length (by omega), List.append_assoc,
    List.take_append_of_le_length (by omega), List.take_length]

theorem readAt_writeBytes_before (mm bs : Bytes) (pos q k : Nat)
    (hq : q + k ≤ pos) (hpos : pos ≤ mm.length) :
    readAt (writeBytes mm pos bs) q k = readAt mm q k := by
  have hlen : (mm.take pos).length = pos := by simp; omega
  rw [writeBytes, readAt, readAt, List.append_assoc,
    List.drop_append_of_le_length (by omega),
    List.take_append_of_le_length (by simp; omega)]
  rw [List.drop_take, List.take_take]
  congr 1
  omega

/-! ### Store (store.go)

`store` keeps an open file, a buffered writer and a running `size`
(bytes on disk plus buffered).  `file` below is the full written byte
sequence; `size` is the struct field maintained by the Go code. -/

structure Store where
  file : Bytes
  size : Nat
  deriving Repr, DecidableEq

/-- `newStore`: the recorded size is the current file size. -/
def newStore (f : Bytes) : Store := { file := f, size := f.length }

/-- `store.Append`: writes an 8-byte big-endian length prefix followed by
the payload, advances `size` by `lenWidth + len p`, and returns
`(bytes written, previous size)` alongside the new store state. -/
def Store.append (s : Store) (p : Bytes) : Store × Nat × Nat :=
  let pos := s.size
  let w := p.length + lenWidth
  ({ file := s.file ++ u64be p.length ++ p, size := s.size + w }, w, pos)

/-- `store.Read`: reads the 8-byte length at `pos`, then that many bytes
at `pos + lenWidth`.  `none` models the `File.ReadAt` error when fewer
bytes are available than requested. -/
def Store.read (s : Store) (pos : Nat) : Option Bytes :=
  if pos + lenWidth ≤ s.file.length then
    let sz := beVal (readAt s.file pos lenWidth)
    if pos + lenWidth + sz ≤ s.file.length then
      some (readAt s.file (pos + lenWidth) sz)
    else none
  else none

/-- A sequence of `store.Append` calls, keeping only the final state. -/
def Store.appendAll (s : Store) (ps : List Bytes) : Store :=
  ps.foldl (fun st p => (st.append p).1) s

theorem Store.appendAll_size (s : Store) (ps : List Bytes) :
    (s.appendAll ps).size = s.size + (ps.map (fun p => lenWidth + p.length)).sum := by
  induction ps generalizing s with
  | nil => simp [Store.appendAll]
  | cons p ps ih =>
      simp only [Store.appendAll, List.foldl_cons, List.map_cons, List.sum_cons] at *
      rw [ih]
      simp [Store.append]
      omega

theorem Store.appendAll_file_length (s : Store) (ps : List Bytes) :
    (s.appendAll ps).file.length
      = s.file.length + (ps.map (fun p => lenWidth + p.length)).sum := by
  induction ps generalizing s with
  | nil => simp [Store.appendAll]
  | cons p ps ih =>
      simp only [Store.appendAll, List.foldl_cons, List.map_cons, List.sum_cons] at *
      rw [ih]
      simp [Store.append, u64be, lenWidth]
      omega

/-! ### Index (index.go)

The index is a file memory-mapped to `MaxIndexBytes`; `size` tracks the
bytes written.  Entries are 4-byte relative offset plus 8-byte store
position, big-endian. -/

def offWidth : Nat := 4

def posWidth : Nat := 8

def entWidth : Nat := offWidth + posWidth

structure Index where
  mmap : Bytes
  size : Nat
  deriving Repr, DecidableEq

/-- `newIndex`: records the current file size as `size`, then truncates
the file to `MaxIndexBytes` (zero-padding or cutting) and memory-maps
that full range. -/
def newIndex (f : Bytes) (maxIndexBytes : Nat) : Index :=
  { mmap := (f ++ List.replicate maxIndexBytes 0).take maxIndexBytes
    size := f.length }

/-- `index.isMaxed`: no room left for another full entry. -/
def Index.isMaxed (i : Index) : Bool := i.mmap.length < i.size + entWidth

/-- `index.Write(off, pos)`: `io.EOF` (here `none`) when maxed, otherwise
writes the entry at `size` and advances `size` by `entWidth`. -/
def Index.write (i : Index) (off pos : Nat) : Option Index :=
  if i.isMaxed then none
  else some { mmap := writeBytes i.mmap i.size (u32be off ++ u64be pos)
              size := i.size + entWidth }

/-- Reinterpretation of a `uint64` bit pattern as an `int64`
(two's complement), used where Go converts between the two. -/
def toInt64 (n : Nat) : Int :=
  if n % 2 ^ 64 < 2 ^ 63 then ((n % 2 ^ 64 : Nat) : Int)
  else ((n % 2 ^ 64 : Nat) : Int) - 2 ^ 64

/-- The entry number computed by `index.Read`: for `in = -1` it is
`uint32(size/entWidth - 1)` in `uint64` arithmetic (hence the wrap when
`size/entWidth = 0`); otherwise it is `uint32(in)`, i.e. `in` truncated
to its low 32 bits. -/
def Index.readEntryNum (i : Index) (inp : Int) : Nat :=
  if inp = -1 then
    (if i.size / entWidth = 0 then 2 ^ 64 - 1 else i.size / entWidth - 1) % 2 ^ 32
  else (inp % (2 ^ 32 : Int)).toNat

/-- `index.Read(in)`: `io.EOF` on an empty index, `io.EOF` when the
addressed entry lies past `size`, otherwise the decoded
`(relativeOffset, storePosition)` pair at the addressed entry. -/
def Index.read (i : Index) (inp : Int) : Option (Nat × Nat) :=
  if i.size = 0 then none
  else
    if i.size < i.readEntryNum inp * entWidth + entWidth then none
    else some (beVal (readAt i.mmap (i.readEntryNum inp * entWidth) offWidth),
               beVal (readAt i.mmap (i.readEntryNum inp * entWidth + offWidth) posWidth))

/-- `index.Name` is a file path; omitted.  A sequence of `index.Write`
calls, failing if any write fails. -/
def Index.writeAll (i : Index) : List (Nat × Nat) → Option Index
  | [] => some i
  | e :: ps =>
    match i.write e.1 e.2 with
    | none => none
    | some j => j.writeAll ps

theorem Index.write_none_iff (i : Index) (off pos : Nat) :
    i.write off pos = none ↔ i.mmap.length < i.size + entWidth := by
  rw [Index.write]
  by_cases h : i.isMaxed
  · simp [h]
    exact of_decide_eq_true h
  · simp [h]
    simpa [Index.isMaxed] using h

theorem Index.write_some (i i' : Index) (off pos : Nat)
    (h : i.write off pos = some i') :
    i'.size = i.size + entWidth ∧
    i'.mmap.length = i.mmap.length ∧
    readAt i'.mmap i.size offWidth = u32be off ∧
    readAt i'.mmap (i.size + offWidth) posWidth = u64be pos := by
  rw [Index.write] at h
  by_cases hm : i.isMaxed
  · simp [hm] at h
  · simp [hm] at h
    have hroom : i.size + entWidth ≤ i.mmap.length := by
      have := hm
      simp [Index.isMaxed] at this
      omega
    subst h
    refine ⟨rfl, ?_, ?_, ?_⟩
    · exact writeBytes_length _ _ _ (by simp [u32be, u64be]; simp [entWidth, offWidth, posWidth] at hroom; omega)
    · exact readAt_writeBytes_start _ _ _ _ (by simp [u32be, u64be]; simp [entWidth, offWidth, posWidth] at hroom; omega)
    · exact readAt_writeBytes_piece _ _ _ _ (by simp [u32be, u64be]; simp [entWidth, offWidth, posWidth] at hroom; omega)

theorem Index.write_preserves (i i' : Index) (off pos q k : Nat)
    (h : i.write off pos = some i') (hq : q + k ≤ i.size) :
    readAt i'.mmap q k = readAt i.mmap q k := by
  rw [Index.write] at h
  by_cases hm : i.isMaxed
  · simp [hm] at h
  · simp [hm] at h
    have hroom : i.size + entWidth ≤ i.mmap.length := by
      simp [Index.isMaxed] at hm
      omega
    subst h
    exact readAt_writeBytes_before _ _ _ _ _ hq (by omega)

theorem Index.writeAll_inv (ps : List (Nat × Nat)) :
    ∀ (c : Nat) (i i' : Index),
      i.size = c * entWidth →
      i.writeAll ps = some i' →
      i'.mmap.length = i.mmap.length ∧
      i'.size = (c + ps.length) * entWidth ∧
      (∀ q k, q + k ≤ i.size → readAt i'.mmap q k = readAt i.mmap q k) ∧
      (∀ j, (hj : j < ps.length) →
        readAt i'.mmap ((c + j) * entWidth) offWidth = u32be (ps.get ⟨j, hj⟩).1 ∧
        readAt i'.mmap ((c + j) * entWidth + offWidth) posWidth
          = u64be (ps.get ⟨j, hj⟩).2) := by
  induction ps with
  | nil =>
    intro c i i' hsz hw
    rw [Index.writeAll] at hw
    cases hw
    exact ⟨rfl, by simpa using hsz, fun q k _ => rfl, fun j hj => by simp at hj⟩
  | cons e ps ih =>
    intro c i i' hsz hw
    rw [Index.writeAll] at hw
    cases hwe : i.write e.1 e.2 with
    | none =>
      rw [hwe] at hw
      cases hw
    | some m =>
      rw [hwe] at hw
      have hw2 : m.writeAll ps = some i' := hw
      obtain ⟨hmsz, hmlen, hm1, hm2⟩ := Index.write_some i m e.1 e.2 hwe
      have hmsz2 : m.size = (c + 1) * entWidth := by rw [hmsz, hsz]; ring
      obtain ⟨ilen, isz, ipres, ient⟩ := ih (c + 1) m i' hmsz2 hw2
      have hstep : ∀ q k, q + k ≤ i.size → readAt i'.mmap q k = readAt i.mmap q k := by
        intro q k hqk
        rw [ipres q k (by omega), Index.write_preserves i m e.1 e.2 q k hwe hqk]
      refine ⟨by rw [ilen, hmlen], by rw [isz, List.length_cons]; ring, hstep, ?_⟩
      intro j hj
      cases j with
      | zero =>
        constructor
        · rw [ipres _ _ (by simp [hmsz2, entWidth, offWidth, posWidth, hsz]; omega)]
          simpa [hsz] using hm1
        · rw [ipres _ _ (by simp [hmsz2, entWidth, offWidth, posWidth, hsz]; omega)]
          simpa [hsz] using hm2
      | succ n =>
        have hn : n < ps.length := by simpa using hj
        have hent := ient n hn
        have harith : (c + 1 + n) * entWidth = (c + (n + 1)) * entWidth := by ring
        constructor
        · have h1 := hent.1
          rw [harith] at h1
          simpa using h1
        · have h2 := hent.2
          rw [harith] at h2
          simpa using h2

/-! ### Records and marshalling (api.Record, proto.Marshal)

`api.Record` is `{ offset: u64, term: u64, type: u32, value: bytes }`.
`proto.Marshal` / `proto.Unmarshal` are modelled by a concrete injective
byte encoding: a fixed header carrying the three numeric fields followed
by the value bytes.  The claims depend only on marshalling being
invertible on field-bounded records, which the protobuf wire format also
guarantees. -/

structure Rec where
  offset : Nat
  term : Nat
  rtype : Nat
  value : Bytes
  deriving Repr, DecidableEq

def marshalRecord (r : Rec) : Bytes :=
  u64be r.offset ++ u64be r.term ++ u32be r.rtype ++ r.value

def unmarshalRecord (b : Bytes) : Rec :=
  { offset := beVal (readAt b 0 8)
    term := beVal (readAt b 8 8)
    rtype := beVal (readAt b 16 4)
    value := b.drop 20 }

theorem marshalRecord_length (r : Rec) :
    (marshalRecord r).length = 20 + r.value.length := by
  simp [marshalRecord, u64be, u32be]
  omega

theorem unmarshalRecord_marshalRecord (r : Rec)
    (h1 : r.offset < 2 ^ 64) (h2 : r.term < 2 ^ 64) (h3 : r.rtype < 2 ^ 32) :
    unmarshalRecord (marshalRecord r) = r := by
  have hb : marshalRecord r
      = u64be r.offset ++ (u64be r.term ++ (u32be r.rtype ++ r.value)) := by
    simp [marshalRecord]
  have e1 : readAt (marshalRecord r) 0 8 = u64be r.offset := by
    rw [hb, readAt, List.drop_zero]
    exact List.take_left' (u64be_length r.offset)
  have e2 : readAt (marshalRecord r) 8 8 = u64be r.term := by
    have h := readAt_append_shift (u64be r.offset)
      (u64be r.term ++ (u32be r.rtype ++ r.value)) 0 8
    rw [u64be_length, Nat.add_zero] at h
    rw [hb, h, readAt, List.drop_zero]
    exact List.take_left' (u64be_length r.term)
  have e3 : readAt (marshalRecord r) 16 4 = u32be r.rtype := by
    have h := readAt_append_shift (u64be r.offset)
      (u64be r.term ++ (u32be r.rtype ++ r.value)) 8 4
    rw [u64be_length] at h
    have h4 := readAt_append_shift (u64be r.term) (u32be r.rtype ++ r.value) 0 4
    rw [u64be_length, Nat.add_zero] at h4
    rw [hb]
    rw [show (16 : Nat) = 8 + 8 from rfl, h, h4, readAt, List.drop_zero]
    exact List.take_left' (u32be_length r.rtype)
  have e4 : (marshalRecord r).drop 20 = r.value := by
    rw [marshalRecord,
      show (20 : Nat) = (u64be r.offset ++ u64be r.term ++ u32be r.rtype).length by
        simp [u64be, u32be]]
    exact List.drop_left _ _
  cases r with
  | mk o t ty v =>
    simp only [unmarshalRecord, e1, e2, e3, e4, beVal_u64be, beVal_u32be]
    simp only [Rec.mk.injEq]
    exact ⟨Nat.mod_eq_of_lt h1, Nat.mod_eq_of_lt h2, Nat.mod_eq_of_lt h3, trivial⟩

/-! ### Configuration (config.go and the `NewLog` defaulting) -/

structure Config where
  maxStoreBytes : Nat
  maxIndexBytes : Nat
  initialOffset : Nat
  deriving Repr, DecidableEq

/-- The defaulting performed at the top of `NewLog`: zero caps become 1024. -/
def applyDefaults (c : Config) : Config :=
  { c with
    maxStoreBytes := if c.maxStoreBytes = 0 then 1024 else c.maxStoreBytes
    maxIndexBytes := if c.maxIndexBytes = 0 then 1024 else c.maxIndexBytes }

/-! ### Segment (segment.go) -/

structure Segment where
  store : Store
  index : Index
  baseOffset : Nat
  nextOffset : Nat
  config : Config
  deriving Repr, DecidableEq

/-- `newSegment(dir, baseOffset, c)`: opens (creating if absent) the two
files — here passed in as byte sequences, empty for new files — builds
the store and index, and derives `nextOffset` from the last index entry:
`baseOffset` when the index is empty, otherwise
`baseOffset + lastRelativeOffset + 1`. -/
def newSegment (storeFile indexFile : Bytes) (baseOffset : Nat) (c : Config) : Segment :=
  let st := newStore storeFile
  let idx := newIndex indexFile c.maxIndexBytes
  let next :=
    match idx.read (-1) with
    | none => baseOffset
    | some (off, _) => baseOffset + off + 1
  { store := st, index := idx, baseOffset := baseOffset, nextOffset := next, config := c }

/-- `segment.Append`: sets the caller's `record.Offset` to `nextOffset`
(the Go code mutates the argument in place; here the mutated record is
returned), marshals it, appends the bytes to the store, writes the index
entry `(nextOffset − baseOffset  as uint32, storePos)`, increments
`nextOffset`, and returns the assigned offset.  `none` models the error
return of a failed index write, after which the already-appended store
bytes remain (the acknowledged leak) and `nextOffset` is unchanged. -/
def Segment.append (s : Segment) (record : Rec) : Segment × Rec × Option Nat :=
  let cur := s.nextOffset
  let record := { record with offset := cur }
  let p := marshalRecord record
  let ares := s.store.append p
  let pos := ares.2.2
  match s.index.write (((cur : Int) - (s.baseOffset : Int)).emod (2 ^ 32)).toNat pos with
  | none => ({ s with store := ares.1 }, record, none)
  | some idx =>
    ({ s with store := ares.1, index := idx, nextOffset := cur + 1 }, record, some cur)

/-- `segment.Read(off)`: index lookup via the relative offset
`int64(off − baseOffset)` (uint64 subtraction reinterpreted as int64),
then a store read at the entry's position, then unmarshal. -/
def Segment.read (s : Segment) (off : Nat) : Option Rec :=
  match s.index.read (toInt64 (((off : Int) - (s.baseOffset : Int)).emod (2 ^ 64)).toNat) with
  | none => none
  | some e =>
    match s.store.read e.2 with
    | none => none
    | some b => some (unmarshalRecord b)

/-- `segment.isMaxed`: store byte cap reached, index byte cap reached, or
the index structurally full. -/
def Segment.isMaxed (s : Segment) : Bool :=
  (s.config.maxStoreBytes ≤ s.store.size) || (s.config.maxIndexBytes ≤ s.index.size)
    || s.index.isMaxed

/-! ### Log (log.go)

`activeSegment` always points at the last element of `segments`, so it
is represented implicitly as `segments.getLast?`. -/

structure Log where
  segments : List Segment
  config : Config
  deriving Repr, DecidableEq

/-- `NewLog(dir, c)` on an empty directory: applies the config defaults
and creates the initial segment at `InitialOffset` (the directory-scan
branch of `setup` re-opens existing segments and is exercised through
`newSegment` directly). -/
def NewLog (c : Config) : Log :=
  let cd := applyDefaults c
  { segments := [newSegment [] [] cd.initialOffset cd], config := cd }

/-- `Log.highestOffset`: the active segment's `nextOffset − 1`, or 0 when
`nextOffset = 0`.  `none` models the panic on an empty segment list,
which `setup` makes unreachable. -/
def Log.highestOffset (l : Log) : Option Nat :=
  match l.segments.getLast? with
  | none => none
  | some s => some (if s.nextOffset = 0 then 0 else s.nextOffset - 1)

/-- `Log.Append`: if the active segment is maxed, rotates in a new
segment at `highestOffset + 1`; then delegates to the active segment. -/
def Log.append (l : Log) (record : Rec) : Log × Rec × Option Nat :=
  match l.segments.getLast? with
  | none => (l, record, none)
  | some active =>
    let h := if active.nextOffset = 0 then 0 else active.nextOffset - 1
    if active.isMaxed then
      let s := newSegment [] [] (h + 1) l.config
      let res := s.append record
      ({ l with segments := l.segments ++ [res.1] }, res.2.1, res.2.2)
    else
      let res := active.append record
      ({ l with segments := l.segments.dropLast ++ [res.1] }, res.2.1, res.2.2)

/-- The error values that can leave `Log.Read` / reach `ConsumeStream`:
the plain `fmt.Errorf("offset out of range: %d", off)` that `Log.Read`
builds, `io.EOF` style errors from index/store reads, and the typed
`api.ErrOffsetOutOfRange` from the api package (that package is not part
of the embedded sources; the constructor exists to express what
`ConsumeStream` matches on). -/
inductive LogErr where
  | fmtOffsetOutOfRange (off : Nat)
  | ioEOF
  | apiOffsetOutOfRange (off : Nat)
  deriving Repr, DecidableEq

/-- `Log.Read(off)`: finds the first segment with
`baseOffset ≤ off < nextOffset` (segments are scanned in order); when
none matches it fails with the formatted *offset out of range* error
(the `s.nextOffset <= off` disjunct in the source is unreachable for a
found segment); otherwise reads through that segment. -/
def Log.read (l : Log) (off : Nat) : Except LogErr Rec :=
  match l.segments.find? (fun s => decide (s.baseOffset ≤ off) && decide (off < s.nextOffset)) with
  | none => .error (.fmtOffsetOutOfRange off)
  | some s =>
    match s.read off with
    | none => .error .ioEOF
    | some r => .ok r

/-- `Log.LowestOffset`: the first segment's `baseOffset`; `none` models
the panic on an empty segment list. -/
def Log.lowestOffset (l : Log) : Option Nat :=
  match l.segments.head? with
  | none => none
  | some s => some s.baseOffset

/-- `Log.Truncate(lowest)`: removes every segment whose
`nextOffset ≤ lowest + 1`, keeping the rest in order.  `lowest` is a
`uint64`, so `lowest + 1` wraps modulo `2^64` (at `lowest = 2^64 − 1`
the bound becomes 0 and nothing is removed). -/
def Log.truncate (l : Log) (lowest : Nat) : Log :=
  { l with segments :=
      l.segments.filter (fun s => decide ((lowest + 1) % 2 ^ 64 < s.nextOffset)) }

/-- A sequence of `Log.Append` calls that records the returned offsets,
failing if any append fails. -/
def Log.appendAll (l : Log) : List Rec → Option (Log × List Nat)
  | [] => some (l, [])
  | r :: rs =>
    match l.append r with
    | (l1, _, some off) =>
      match l1.appendAll rs with
      | none => none
      | some (l2, offs) => some (l2, off :: offs)
    | (_, _, none) => none

/-! ### ConsumeStream error dispatch (server.go) -/

inductive StreamAction where
  | send
  | waitRetry
  | terminate
  deriving Repr, DecidableEq

/-- One iteration of `grpcServer.ConsumeStream`'s `switch err.(type)`:
`nil` sends the response and advances the offset,
`api.ErrOffsetOutOfRange` sleeps a second and retries, and any other
error type terminates the stream. -/
def consumeStreamStep (e : Option LogErr) : StreamAction :=
  match e with
  | none => .send
  | some (.apiOffsetOutOfRange _) => .waitRetry
  | some _ => .terminate

/-- The error component of a `Log.Read` result, as seen by `Consume` /
`ConsumeStream`. -/
def readError (x : Except LogErr Rec) : Option LogErr :=
  match x with
  | .ok _ => none
  | .error e => some e

/-! ### Claim C5: store append postcondition and size invariant -/

/-- C5: `store.Append(p)` returns `bytesWritten = 8 + len p` and
`position` equal to the store's size immediately before the call, and
after any sequence of appends the store's size equals the sum of
`8 + payload length` over every appended frame — which is exactly the
byte length of the written data (bytes on disk plus buffered). -/
theorem C5_store_append_size (s : Store) (p : Bytes) (f : Bytes) (ps : List Bytes) :
    (s.append p).2.1 = 8 + p.length ∧
    (s.append p).2.2 = s.size ∧
    ((newStore f).appendAll ps).size
      = f.length + (ps.map (fun q => 8 + q.length)).sum ∧
    ((newStore f).appendAll ps).file.length
      = f.length + (ps.map (fun q => 8 + q.length)).sum := by
  refine ⟨by simp [Store.append, lenWidth]; omega, rfl, ?_, ?_⟩
  · rw [Store.appendAll_size]
    simp [newStore, lenWidth]
  · rw [Store.appendAll_file_length]
    simp [newStore, lenWidth]

/-! ### Claim C10: segment.Append mutates its argument in place -/

/-- C10: `segment.Append` sets the caller's `record.Offset` field to the
segment's current `nextOffset` before marshalling (here: the record it
hands back carries that offset), the offset it returns on success equals
that mutated field, and no other field of the record is modified. -/
theorem C10_segment_append_mutation (s : Segment) (r : Rec) :
    (s.append r).2.1.offset = s.nextOffset ∧
    (s.append r).2.1.term = r.term ∧
    (s.append r).2.1.rtype = r.rtype ∧
    (s.append r).2.1.value = r.value ∧
    (∀ off, (s.append r).2.2 = some off → off = s.nextOffset) := by
  refine ⟨?_, ?_, ?_, ?_, ?_⟩
  · unfold Segment.append; dsimp only; split <;> rfl
  · unfold Segment.append; dsimp only; split <;> rfl
  · unfold Segment.append; dsimp only; split <;> rfl
  · unfold Segment.append; dsimp only; split <;> rfl
  · intro off h
    unfold Segment.append at h
    dsimp only at h
    revert h
    split <;> intro h <;> simp at h
    omega

/-- Witness for C10 at a concrete segment and record. -/
theorem C10_witness :
    ((newSegment [] [] 0 ⟨1024, 24, 0⟩).append ⟨0, 0, 0, [1, 2]⟩).2.2 = some 0 ∧
    ((newSegment [] [] 0 ⟨1024, 24, 0⟩).append ⟨0, 0, 0, [1, 2]⟩).2.1.offset = 0 ∧
    (0 : Nat) = (newSegment [] [] 0 ⟨1024, 24, 0⟩).nextOffset := by
  have h := C10_segment_append_mutation (newSegment [] [] 0 ⟨1024, 24, 0⟩) ⟨0, 0, 0, [1, 2]⟩
  refine ⟨by decide, ?_, h.2.2.2.2 0 (by decide)⟩
  have h0 : (newSegment [] [] 0 ⟨1024, 24, 0⟩).nextOffset = 0 := by decide
  rw [h.1, h0]

/-! ### Picker (picker.go)

Sub-connections are identified abstractly by numbers; `leader` is an
`Option` because the Go field is nil until `Build` sees a leader
address. -/

abbrev SubConn := Nat

structure Picker where
  leader : Option SubConn
  followers : List SubConn
  current : Nat
  deriving Repr, DecidableEq

inductive PickErr where
  | errNoSubConnAvailable
  deriving Repr, DecidableEq

/-- Whether `needle` occurs as a contiguous subsequence of `hay`. -/
def containsSeq (hay needle : List Char) : Bool :=
  match hay with
  | [] => needle.isEmpty
  | _ :: t => needle.isPrefixOf hay || containsSeq t needle

/-- `strings.Contains(s, sub)`. -/
def strContains (s sub : String) : Bool := containsSeq s.toList sub.toList

/-- `picker.nextFollower`: atomically increments the `uint64` counter and
indexes the follower list by the counter modulo its length.  The
zero-length branch models the division-by-zero panic; `Pick` never takes
it. -/
def Picker.nextFollower (p : Picker) : Picker × Option SubConn :=
  let cur := (p.current + 1) % 2 ^ 64
  let len := p.followers.length
  if len = 0 then ({ p with current := cur }, none)
  else ({ p with current := cur }, some (p.followers.getD (cur % len) 0))

/-- `picker.Pick`: leader for "Produce" calls or when there are no
followers; round-robin follower for "Consume" calls; the
`ErrNoSubConnAvailable` error when the chosen sub-connection is
absent. -/
def Picker.pick (p : Picker) (fullMethodName : String) : Picker × Except PickErr SubConn :=
  let rp :=
    if strContains fullMethodName "Produce" || p.followers.isEmpty then
      (p, p.leader)
    else if strContains fullMethodName "Consume" then
      p.nextFollower
    else (p, none)
  match rp.2 with
  | none => (rp.1, .error .errNoSubConnAvailable)
  | some sc => (rp.1, .ok sc)

/-! ### Claim C8: picker routing -/

/-- C8: on a built picker, a full method name containing "Produce" — or
an empty follower list — routes to the leader sub-connection (and to the
`ErrNoSubConnAvailable` error when the leader is absent, so the call
blocks until a new `Build`); a method containing "Consume" (and not
"Produce"), with followers present, is routed to the next follower by
round-robin: the atomic counter is incremented (mod `2^64`) and taken
modulo the follower count. -/
theorem C8_picker_routing (p : Picker) (m : String) :
    (strContains m "Produce" = true ∨ p.followers = [] →
      (p.pick m).1 = p ∧
      (p.pick m).2 = (match p.leader with
        | none => Except.error PickErr.errNoSubConnAvailable
        | some sc => Except.ok sc)) ∧
    (strContains m "Produce" = false → strContains m "Consume" = true →
      p.followers ≠ [] →
      (p.pick m).1.current = (p.current + 1) % 2 ^ 64 ∧
      (p.pick m).1.followers = p.followers ∧
      (p.pick m).1.leader = p.leader ∧
      (p.pick m).2 = Except.ok
        (p.followers.getD (((p.current + 1) % 2 ^ 64) % p.followers.length) 0)) := by
  constructor
  · intro h
    have hcond : (strContains m "Produce" || p.followers.isEmpty) = true := by
      rcases h with h | h
      · simp [h]
      · simp [h]
    unfold Picker.pick
    rw [if_pos hcond]
    cases hl : p.leader <;> simp
  · intro h1 h2 h3
    have hne : p.followers.isEmpty = false := by
      cases hf : p.followers
      · exact absurd hf h3
      · simp [hf]
    have hcond : (strContains m "Produce" || p.followers.isEmpty) = false := by
      simp [h1, hne]
    have hlen : p.followers.length ≠ 0 := by
      cases hf : p.followers
      · exact absurd hf h3
      · simp [hf]
    unfold Picker.pick
    rw [if_neg (by simp [hcond]), if_pos h2]
    unfold Picker.nextFollower
    rw [if_neg hlen]
    simp

/-- Witness for C8: a picker with leader 100, followers [7, 8, 9] and
counter 0; a Produce call routes to the leader, a Consume call routes to
follower `(0+1) % 3 = 1`, i.e. sub-connection 8. -/
theorem C8_witness :
    (Picker.pick ⟨some 100, [7, 8, 9], 0⟩ "/log.vX.Log/Produce").2 = Except.ok 100 ∧
    (Picker.pick ⟨some 100, [7, 8, 9], 0⟩ "/log.vX.Log/Consume").2 = Except.ok 8 ∧
    (Picker.pick ⟨some 100, [7, 8, 9], 0⟩ "/log.vX.Log/Consume").1.current = 1 := by
  have h := C8_picker_routing ⟨some 100, [7, 8, 9], 0⟩ "/log.vX.Log/Produce"
  have hp := (h.1 (Or.inl (by decide))).2
  have h2 := C8_picker_routing ⟨some 100, [7, 8, 9], 0⟩ "/log.vX.Log/Consume"
  have hc := h2.2 (by decide) (by decide) (by decide)
  exact ⟨hp.trans rfl, hc.2.2.2.trans rfl, hc.1.trans (by decide)⟩

/-! ### Membership event loop (membership.go)

`Membership.eventHandler` ranges over the serf event channel.  Join
events skip the local member with `continue`; leave/failed events
RETURN from the handler when the local member is encountered, ending the
loop.  The handler calls are collected as a trace. -/

inductive SerfEventType where
  | memberJoin
  | memberLeave
  | memberFailed
  deriving Repr, DecidableEq

structure Member where
  name : String
  rpcAddr : String
  deriving Repr, DecidableEq

structure SerfEvent where
  etype : SerfEventType
  members : List Member
  deriving Repr, DecidableEq

inductive HandlerCall where
  | join (name addr : String)
  | leave (name : String)
  deriving Repr, DecidableEq

/-- The member loop of a leave/failed event: `handleLeave(member)` for
each member until the local node is encountered, at which point the
whole event handler returns (Go `return`, not `continue`).  Yields the
calls made and whether the event loop survives. -/
def leaveCalls (localName : String) : List Member → List HandlerCall × Bool
  | [] => ([], true)
  | m :: ms =>
    if m.name = localName then ([], false)
    else
      let r := leaveCalls localName ms
      (HandlerCall.leave m.name :: r.1, r.2)

/-- `Membership.eventHandler` over a finite trace of events. -/
def eventHandler (localName : String) : List SerfEvent → List HandlerCall
  | [] => []
  | e :: es =>
    match e.etype with
    | .memberJoin =>
      (e.members.filter (fun m => !(m.name == localName))).map
          (fun m => HandlerCall.join m.name m.rpcAddr)
        ++ eventHandler localName es
    | .memberLeave =>
      let r := leaveCalls localName e.members
      if r.2 then r.1 ++ eventHandler localName es else r.1
    | .memberFailed =>
      let r := leaveCalls localName e.members
      if r.2 then r.1 ++ eventHandler localName es else r.1

theorem leaveCalls_spec (localName : String) (ms : List Member) :
    (leaveCalls localName ms).1
      = (ms.takeWhile (fun m => !(m.name == localName))).map
          (fun m => HandlerCall.leave m.name) ∧
    (leaveCalls localName ms).2 = ms.all (fun m => !(m.name == localName)) := by
  induction ms with
  | nil => simp [leaveCalls]
  | cons m ms ih =>
    by_cases h : m.name = localName
    · simp [leaveCalls, h, List.takeWhile_cons, List.all_cons]
    · simp [leaveCalls, h, List.takeWhile_cons, List.all_cons, ih.1, ih.2]

/-! ### Claim C9: membership event dispatch -/

/-- C9 counterexample: with local node "0", a single member-leave event
listing the local node first and node "1" second produces NO handler
calls at all — the loop returns at the local member — where the claim
requires `Leave("1")`; a join event queued behind it is also never
processed. -/
theorem C9_counterexample :
    eventHandler "0"
        [⟨SerfEventType.memberLeave, [⟨"0", "a0"⟩, ⟨"1", "a1"⟩]⟩] = [] ∧
    eventHandler "0"
        [⟨SerfEventType.memberLeave, [⟨"0", "a0"⟩, ⟨"1", "a1"⟩]⟩]
      ≠ [HandlerCall.leave "1"] ∧
    eventHandler "0"
        [⟨SerfEventType.memberLeave, [⟨"0", "a0"⟩, ⟨"1", "a1"⟩]⟩,
         ⟨SerfEventType.memberJoin, [⟨"2", "a2"⟩]⟩] = [] := by
  refine ⟨rfl, ?_, rfl⟩
  intro h
  cases h

/-- C9 amended: for each member-join event the loop invokes
`Join(name, rpc_addr)` for every listed member other than the local node
and continues; for a member-leave/failed event it invokes `Leave(name)`
for the listed members in order but only up to the first occurrence of
the local node — if the local node is listed, the event loop returns
there, processing neither the remaining members nor any subsequent
event; only when the local node is absent does it process every member
and continue with the next event. -/
theorem C9_membership_dispatch (localName : String) (e : SerfEvent) (es : List SerfEvent) :
    (e.etype = SerfEventType.memberJoin →
      eventHandler localName (e :: es)
        = (e.members.filter (fun m => !(m.name == localName))).map
            (fun m => HandlerCall.join m.name m.rpcAddr)
          ++ eventHandler localName es) ∧
    ((e.etype = SerfEventType.memberLeave ∨ e.etype = SerfEventType.memberFailed) →
      (e.members.all (fun m => !(m.name == localName)) = true →
        eventHandler localName (e :: es)
          = e.members.map (fun m => HandlerCall.leave m.name)
            ++ eventHandler localName es) ∧
      (e.members.all (fun m => !(m.name == localName)) = false →
        eventHandler localName (e :: es)
          = (e.members.takeWhile (fun m => !(m.name == localName))).map
              (fun m => HandlerCall.leave m.name))) := by
  obtain ⟨sp1, sp2⟩ := leaveCalls_spec localName e.members
  constructor
  · intro hj
    rw [eventHandler, hj]
  · intro hl
    constructor
    · intro hall
      have htw : e.members.takeWhile (fun m => !(m.name == localName)) = e.members :=
        List.takeWhile_eq_self_iff.mpr (by simpa [List.all_eq_true] using hall)
      rcases hl with h | h <;>
        rw [eventHandler, h] <;>
        simp only [sp2, hall, if_true, sp1, htw]
    · intro hall
      rcases hl with h | h <;>
        rw [eventHandler, h] <;>
        simp only [sp2, hall, if_false, sp1, Bool.false_eq_true]

/-- Witness for C9 at a concrete trace: local node "0", one leave event
listing "1", then "0", then "2": only `Leave("1")` is invoked. -/
theorem C9_witness :
    eventHandler "0"
        [⟨SerfEventType.memberLeave, [⟨"1", "a1"⟩, ⟨"0", "a0"⟩, ⟨"2", "a2"⟩]⟩]
      = [HandlerCall.leave "1"] := by
  have h := (C9_membership_dispatch "0"
    ⟨SerfEventType.memberLeave, [⟨"1", "a1"⟩, ⟨"0", "a0"⟩, ⟨"2", "a2"⟩]⟩ []).2
    (Or.inl rfl)
  exact (h.2 (by decide)).trans (by decide)

/-! ### Well-formed index files and claim C7 -/

/-- The on-disk bytes of one index entry. -/
def entryBytes (e : Nat × Nat) : Bytes := u32be e.1 ++ u64be e.2

/-- The on-disk bytes of an index file holding the entries `ps`. -/
def entriesBytes : List (Nat × Nat) → Bytes
  | [] => []
  | e :: ps => entryBytes e ++ entriesBytes ps

theorem entryBytes_length (e : Nat × Nat) : (entryBytes e).length = 12 := by
  simp [entryBytes, u32be, u64be]

theorem entriesBytes_length (ps : List (Nat × Nat)) :
    (entriesBytes ps).length = 12 * ps.length := by
  induction ps with
  | nil => simp [entriesBytes]
  | cons e ps ih =>
    simp [entriesBytes, entryBytes_length, ih]
    ring

theorem readAt_entriesBytes (ps : List (Nat × Nat)) :
    ∀ (rest : Bytes) (k : Nat) (h : k < ps.length),
      readAt (entriesBytes ps ++ rest) (k * 12) 4 = u32be (ps.get ⟨k, h⟩).1 ∧
      readAt (entriesBytes ps ++ rest) (k * 12 + 4) 8 = u64be (ps.get ⟨k, h⟩).2 := by
  induction ps with
  | nil => intro rest k h; simp at h
  | cons e ps ih =>
    intro rest k h
    cases k with
    | zero =>
      constructor
      · have hb : entriesBytes (e :: ps) ++ rest
            = u32be e.1 ++ (u64be e.2 ++ (entriesBytes ps ++ rest)) := by
          simp [entriesBytes, entryBytes]
        rw [hb]
        show readAt _ 0 4 = _
        rw [readAt, List.drop_zero]
        exact List.take_left' (u32be_length e.1)
      · have hb : entriesBytes (e :: ps) ++ rest
            = u32be e.1 ++ (u64be e.2 ++ (entriesBytes ps ++ rest)) := by
          simp [entriesBytes, entryBytes]
        rw [hb]
        have hs := readAt_append_shift (u32be e.1) (u64be e.2 ++ (entriesBytes ps ++ rest)) 0 8
        rw [u32be_length, Nat.add_zero] at hs
        show readAt _ 4 8 = _
        rw [hs, readAt, List.drop_zero]
        exact List.take_left' (u64be_length e.2)
    | succ n =>
      have hn : n < ps.length := by simpa using h
      have hb : entriesBytes (e :: ps) ++ rest
          = entryBytes e ++ (entriesBytes ps ++ rest) := by
        simp [entriesBytes]
      obtain ⟨ih1, ih2⟩ := ih rest n hn
      constructor
      · have hs := readAt_append_shift (entryBytes e) (entriesBytes ps ++ rest) (n * 12) 4
        rw [entryBytes_length] at hs
        have harith : (n + 1) * 12 = 12 + n * 12 := by ring
        rw [hb, harith, hs, ih1]
        simp
      · have hs := readAt_append_shift (entryBytes e) (entriesBytes ps ++ rest) (n * 12 + 4) 8
        rw [entryBytes_length] at hs
        have harith : (n + 1) * 12 + 4 = 12 + (n * 12 + 4) := by ring
        rw [hb, harith, hs, ih2]
        simp

theorem newIndex_mmap_of_le (f : Bytes) (M : Nat) (h : f.length ≤ M) :
    (newIndex f M).mmap = f ++ List.replicate (M - f.length) 0 := by
  rw [newIndex]
  simp only [List.take_append_eq_append_take, List.take_replicate]
  rw [List.take_of_length_le h]
  congr 1
  congr 1
  omega

/-- C7: `newSegment` derives `nextOffset = baseOffset` when the index
file is empty (whatever the store file holds), and
`nextOffset = baseOffset + lastRelativeOffset + 1` when the index file
holds at least one entry, so a reopened segment resumes appending
immediately after its last indexed record.  The well-formedness
hypotheses say the index file is a whole number of entries that fits the
configured `MaxIndexBytes` map and that the entry count and the last
relative offset fit in `uint32`, as every file written by `index.Write`
under a constant config does. -/
theorem C7_newSegment_nextOffset (storeFile : Bytes) (base : Nat) (c : Config)
    (ps : List (Nat × Nat)) (hne : ps ≠ [])
    (hfit : 12 * ps.length ≤ c.maxIndexBytes)
    (hcount : ps.length ≤ 2 ^ 32)
    (hlast : (ps.getLast hne).1 < 2 ^ 32) :
    (newSegment storeFile [] base c).nextOffset = base ∧
    (newSegment storeFile (entriesBytes ps) base c).nextOffset
      = base + (ps.getLast hne).1 + 1 := by
  constructor
  · rw [newSegment]
    simp [newIndex, Index.read]
  · have hn : 0 < ps.length := List.length_pos.mpr hne
    have hsz : (entriesBytes ps).length = 12 * ps.length := entriesBytes_length ps
    have hmm : (newIndex (entriesBytes ps) c.maxIndexBytes).mmap
        = entriesBytes ps ++ List.replicate (c.maxIndexBytes - (entriesBytes ps).length) 0 :=
      newIndex_mmap_of_le _ _ (by omega)
    have hsize : (newIndex (entriesBytes ps) c.maxIndexBytes).size = 12 * ps.length := by
      simp [newIndex, hsz]
    have hget := readAt_entriesBytes ps
      (List.replicate (c.maxIndexBytes - (entriesBytes ps).length) 0)
      (ps.length - 1) (by omega)
    have hlastget : ps.getLast hne = ps.get ⟨ps.length - 1, by omega⟩ :=
      List.getLast_eq_get ps hne
    rw [newSegment]
    have hnum : (newIndex (entriesBytes ps) c.maxIndexBytes).readEntryNum (-1)
        = ps.length - 1 := by
      rw [Index.readEntryNum, if_pos rfl, hsize, show entWidth = 12 from rfl]
      have hdiv : 12 * ps.length / 12 = ps.length := by omega
      rw [hdiv, if_neg (by omega)]
      omega
    have hread : (newIndex (entriesBytes ps) c.maxIndexBytes).read (-1)
        = some ((ps.getLast hne).1 % 2 ^ 32, (ps.getLast hne).2 % 2 ^ 64) := by
      rw [Index.read, if_neg (by rw [hsize]; omega), hnum,
        if_neg (by rw [hsize, show entWidth = 12 from rfl]; omega)]
      rw [hmm, show entWidth = 12 from rfl, show offWidth = 4 from rfl,
        show posWidth = 8 from rfl, hget.1, hget.2, beVal_u32be, beVal_u64be, hlastget]
    rw [hread]
    have heq : (ps.getLast hne).1 % 2 ^ 32 = (ps.getLast hne).1 := Nat.mod_eq_of_lt hlast
    simp only [heq]

/-- Witness for C7: base offset 16, one index entry with relative offset
0 at store position 0, `MaxIndexBytes = 24`: the reopened segment has
`nextOffset = 17`; with an empty index file it has `nextOffset = 16`. -/
theorem C7_witness :
    (newSegment [] [] 16 ⟨1024, 24, 0⟩).nextOffset = 16 ∧
    (newSegment [] (entriesBytes [(0, 0)]) 16 ⟨1024, 24, 0⟩).nextOffset = 17 := by
  have h := C7_newSegment_nextOffset [] 16 ⟨1024, 24, 0⟩ [(0, 0)]
    (by decide) (by decide) (by decide) (by decide)
  exact ⟨h.1, h.2⟩

/-! ### Claim C6: index bounds behaviour -/

/-- C6 counterexample: a fresh 24-byte index receives one entry
`(5, 7)` (entry number 0, the only written entry); reading entry
`2^32` — far out of range of the written entries — does NOT return
end-of-data: `uint32(in)` truncates `2^32` to 0 and the read returns
entry 0's pair `(5, 7)`. -/
theorem C6_counterexample :
    ((newIndex [] 24).write 5 7).bind (fun i => i.read ((2 : Int) ^ 32))
      = some (5, 7) ∧
    ((newIndex [] 24).write 5 7).bind (fun i => i.read ((2 : Int) ^ 32)) ≠ none ∧
    ((newIndex [] 24).write 5 7).map (fun i => i.size) = some 12 := by
  refine ⟨by decide, by decide, by decide⟩

/-- C6 amended: `index.Write(off, pos)` fails with end-of-data exactly
when `size + 12` exceeds the mmap length, and otherwise writes the
4-byte offset and 8-byte position at position `size` and advances `size`
by 12.  `index.Read(i)` returns end-of-data on an empty index; on an
index holding the written entries `ps` it reads entry `uint32(i)` — the
entry number is `i` truncated to its low 32 bits — returning end-of-data
exactly when that truncated entry number is out of range of the written
entries, the pair previously written as entry `uint32(i)` otherwise, and
`i = -1` reads the last written entry. -/
theorem C6_index_bounds (i : Index) (off pos : Nat) (i' : Index)
    (M : Nat) (ps : List (Nat × Nat)) (i1 : Index)
    (hw : (newIndex [] M).writeAll ps = some i1)
    (hcount : ps.length ≤ 2 ^ 32) :
    (i.write off pos = none ↔ i.mmap.length < i.size + 12) ∧
    (i.write off pos = some i' →
      i'.size = i.size + 12 ∧
      readAt i'.mmap i.size 4 = u32be off ∧
      readAt i'.mmap (i.size + 4) 8 = u64be pos) ∧
    (∀ (inp : Int), i.size = 0 → i.read inp = none) ∧
    (∀ (k : Nat) (hk : k < ps.length),
      i1.read (k : Int)
        = some ((ps.get ⟨k, hk⟩).1 % 2 ^ 32, (ps.get ⟨k, hk⟩).2 % 2 ^ 64)) ∧
    (∀ hne : ps ≠ [],
      i1.read (-1)
        = some ((ps.getLast hne).1 % 2 ^ 32, (ps.getLast hne).2 % 2 ^ 64)) ∧
    (∀ (inp : Int), 0 ≤ inp → ps.length ≤ (inp % (2 ^ 32 : Int)).toNat →
      i1.read inp = none) := by
  have hsz0 : (newIndex [] M).size = 0 := by simp [newIndex]
  obtain ⟨hlen, hsize, _, hent⟩ :=
    Index.writeAll_inv ps 0 (newIndex [] M) i1 (by simpa using hsz0) hw
  simp only [Nat.zero_add] at hent
  have hsize12 : i1.size = ps.length * 12 := by
    rw [hsize, show entWidth = 12 from rfl]
    ring
  refine ⟨?_, ?_, ?_, ?_, ?_, ?_⟩
  · rw [show (12 : Nat) = entWidth from rfl]
    exact Index.write_none_iff i off pos
  · intro hws
    obtain ⟨h1, _, h3, h4⟩ := Index.write_some i i' off pos hws
    exact ⟨by rw [h1, show entWidth = 12 from rfl], h3, h4⟩
  · intro inp h0
    rw [Index.read, if_pos h0]
  · intro k hk
    have hnum : i1.readEntryNum (k : Int) = k := by
      rw [Index.readEntryNum, if_neg (by omega)]
      omega
    rw [Index.read, if_neg (by omega), hnum,
      if_neg (by rw [hsize12, show entWidth = 12 from rfl]; omega)]
    obtain ⟨he1, he2⟩ := hent k hk
    rw [he1, he2, beVal_u32be, beVal_u64be]
  · intro hne
    have hn : 0 < ps.length := List.length_pos.mpr hne
    have hnum : i1.readEntryNum (-1) = ps.length - 1 := by
      rw [Index.readEntryNum, if_pos rfl, hsize12, show entWidth = 12 from rfl]
      have hdiv : ps.length * 12 / 12 = ps.length := by omega
      rw [hdiv, if_neg (by omega)]
      omega
    rw [Index.read, if_neg (by omega), hnum,
      if_neg (by rw [hsize12, show entWidth = 12 from rfl]; omega)]
    obtain ⟨he1, he2⟩ := hent (ps.length - 1) (by omega)
    rw [he1, he2, beVal_u32be, beVal_u64be,
      List.getLast_eq_get ps hne]
  · intro inp hpos hout
    rcases hps : ps with _ | ⟨e, rest⟩
    · subst hps
      have h0 : i1.size = 0 := by simpa using hsize12
      rw [Index.read, if_pos h0]
    · have hn : 0 < ps.length := by rw [hps]; simp
      have hnum : i1.readEntryNum inp = (inp % (2 ^ 32 : Int)).toNat := by
        rw [Index.readEntryNum, if_neg (by omega)]
      rw [← hps] at *
      rw [Index.read, if_neg (by omega), hnum,
        if_pos (by rw [hsize12, show entWidth = 12 from rfl]; omega)]

/-- Witness for C6: a 24-byte index receives entries `(5,7)` and
`(9,11)`; entry 1 reads back `(9,11)`, `-1` reads the last entry
`(9,11)`, and entry 2 is out of range. -/
theorem C6_witness :
    ((newIndex [] 24).writeAll [(5, 7), (9, 11)]).bind (fun i1 => i1.read 1)
      = some (9, 11) ∧
    ((newIndex [] 24).writeAll [(5, 7), (9, 11)]).bind (fun i1 => i1.read (-1))
      = some (9, 11) ∧
    ((newIndex [] 24).writeAll [(5, 7), (9, 11)]).bind (fun i1 => i1.read 2)
      = none := by
  cases hw : (newIndex [] 24).writeAll [(5, 7), (9, 11)] with
  | none => exact absurd hw (by decide)
  | some i1 =>
    obtain ⟨-, -, -, h4, h5, h6⟩ := C6_index_bounds (newIndex [] 24) 0 0 (newIndex [] 24)
      24 [(5, 7), (9, 11)] i1 hw (by decide)
    refine ⟨?_, ?_, ?_⟩
    · simpa using h4 1 (by decide)
    · simpa using h5 (by decide)
    · simpa using h6 2 (by decide) (by decide)

/-! ### Concrete example log: two records appended to a fresh log -/

/-- A fresh log (initial offset 0, `MaxIndexBytes = 24`) after appending
two one-byte records; it holds offsets 0 and 1 in a single segment. -/
def twoRecordLog : Log :=
  match (NewLog ⟨1024, 24, 0⟩).appendAll [⟨0, 0, 0, [1]⟩, ⟨0, 0, 0, [2]⟩] with
  | some lp => lp.1
  | none => NewLog ⟨1024, 24, 0⟩

/-! ### Claim C4: Truncate postcondition -/

/-- C4 counterexample: `twoRecordLog` holds offsets 0 and 1 in one
segment (`highestOffset = 1`, so `L = 0` does not exceed the highest
offset and the empty-log disjunct does not apply); after `Truncate(0)`
the log is nonempty and `LowestOffset()` is 0, not `≥ L + 1 = 1` — the
straddling segment survives whole. -/
theorem C4_counterexample :
    twoRecordLog.highestOffset = some 1 ∧
    (twoRecordLog.truncate 0).segments ≠ [] ∧
    (twoRecordLog.truncate 0).lowestOffset = some 0 := by
  refine ⟨by decide, by decide, by decide⟩

/-- C4 amended: `Truncate(L)` computes `L + 1` in `uint64` arithmetic
and removes exactly those segments whose
`nextOffset ≤ (L + 1) mod 2^64`, leaving every other segment unchanged
and in order; hence every surviving segment has
`nextOffset ≥ (L + 1) mod 2^64 + 1`, and the log becomes empty exactly
when every segment had `nextOffset ≤ (L + 1) mod 2^64` — in particular
whenever `L` equals or exceeds the highest offset and `L + 1` does not
wrap; at `L = 2^64 − 1` the bound wraps to 0, so no (nonempty) segment
is removed.  `LowestOffset() ≥ L + 1` holds only in the weaker form
that the first surviving segment (if any) has `nextOffset > L + 1`;
its `baseOffset` may still be `≤ L`. -/
theorem C4_truncate (l : Log) (L : Nat) :
    (l.truncate L).segments
      = l.segments.filter (fun s => decide ((L + 1) % 2 ^ 64 < s.nextOffset)) ∧
    (∀ s ∈ (l.truncate L).segments, (L + 1) % 2 ^ 64 + 1 ≤ s.nextOffset) ∧
    ((l.truncate L).segments = []
      ↔ ∀ s ∈ l.segments, s.nextOffset ≤ (L + 1) % 2 ^ 64) ∧
    (∀ active, l.segments.getLast? = some active →
      (∀ s ∈ l.segments, s.nextOffset ≤ active.nextOffset) →
      active.nextOffset - 1 ≤ L → L + 1 < 2 ^ 64 →
      (l.truncate L).segments = []) ∧
    (L = 2 ^ 64 - 1 → (∀ s ∈ l.segments, 1 ≤ s.nextOffset) →
      (l.truncate L).segments = l.segments) := by
  refine ⟨rfl, ?_, ?_, ?_, ?_⟩
  · intro s hs
    rw [Log.truncate] at hs
    simp only [List.mem_filter, decide_eq_true_eq] at hs
    omega
  · rw [Log.truncate]
    simp only [List.filter_eq_nil_iff, decide_eq_true_eq]
    constructor
    · intro h s hs
      have := h s hs
      omega
    · intro h s hs
      have := h s hs
      omega
  · intro active hactive hbound hhi hnw
    rw [Log.truncate]
    simp only [List.filter_eq_nil_iff, decide_eq_true_eq]
    intro s hs
    have := hbound s hs
    omega
  · intro hL hpos
    show l.segments.filter (fun s => decide ((L + 1) % 2 ^ 64 < s.nextOffset))
      = l.segments
    rw [List.filter_eq_self]
    intro s hs
    simp only [decide_eq_true_eq]
    have := hpos s hs
    omega

/-- Witness for C4: truncating `twoRecordLog` at `L = 3 ≥ highest = 1`
empties the log, while truncating at `L = 2^64 − 1` (where `L + 1`
wraps to 0) removes nothing. -/
theorem C4_witness :
    (twoRecordLog.truncate 3).segments = [] ∧
    (twoRecordLog.truncate (2 ^ 64 - 1)).segments = twoRecordLog.segments := by
  constructor
  · obtain ⟨-, -, -, h4, -⟩ := C4_truncate twoRecordLog 3
    cases hactive : twoRecordLog.segments.getLast? with
    | none => exact absurd hactive (by decide)
    | some active =>
      have hlist : ∀ t ∈ twoRecordLog.segments, t.nextOffset = 2 := by decide
      have hmem : active ∈ twoRecordLog.segments := by
        obtain ⟨h, heq⟩ := List.mem_getLast?_eq_getLast (Option.mem_def.mpr hactive)
        rw [heq]
        exact List.getLast_mem h
      have hact2 : active.nextOffset = 2 := hlist active hmem
      refine h4 active hactive ?_ (by omega) (by decide)
      intro s hs
      have h1 : s.nextOffset = 2 := hlist s hs
      omega
  · obtain ⟨-, -, -, -, h5⟩ := C4_truncate twoRecordLog (2 ^ 64 - 1)
    refine h5 rfl ?_
    intro s hs
    have : s.nextOffset = 2 := by revert s; decide
    omega

/-! ### Claim C3: out-of-range reads and the domain-specific error -/

/-- C3 (code bug, evaluated at the failing input): on a log holding
offsets 0 and 1, `Log.Read(5)` — an offset no segment covers — fails
with the plain formatted error `fmt.Errorf("offset out of range: 5")`,
not with the typed `api.ErrOffsetOutOfRange`; `ConsumeStream`'s type
switch therefore hits its default case and terminates the stream, while
only the typed error (which `Log.Read` never constructs) would be
treated as wait-and-retry.  The repository's own tests
(`server.go` `require.IsType(api.ErrOffsetOutOfRange{}, err)` and
`testConsumePastBoundary`) expect the typed error. -/
theorem C3_out_of_range_error_type :
    twoRecordLog.read 5 = Except.error (LogErr.fmtOffsetOutOfRange 5) ∧
    consumeStreamStep (readError (twoRecordLog.read 5)) = StreamAction.terminate ∧
    consumeStreamStep (some (LogErr.apiOffsetOutOfRange 5)) = StreamAction.waitRetry := by
  refine ⟨rfl, rfl, rfl⟩

/-! ### Success characterization of appends -/

theorem Segment.append_some (s : Segment) (r : Rec) (s1 : Segment) (rm : Rec) (o : Nat)
    (h : s.append r = (s1, rm, some o)) :
    o = s.nextOffset ∧
    rm = { r with offset := s.nextOffset } ∧
    s1.baseOffset = s.baseOffset ∧
    s1.nextOffset = s.nextOffset + 1 ∧
    s1.config = s.config ∧
    s1.store = (s.store.append (marshalRecord { r with offset := s.nextOffset })).1 ∧
    s.index.write (((s.nextOffset : Int) - (s.baseOffset : Int)).emod (2 ^ 32)).toNat
        (s.store.append (marshalRecord { r with offset := s.nextOffset })).2.2
      = some s1.index := by
  unfold Segment.append at h
  dsimp only at h
  revert h
  split
  · intro h
    injection h with hA hBC
    injection hBC with hB hC
    cases hC
  · intro h
    next idx heq =>
      injection h with hA hBC
      injection hBC with hB hC
      injection hC with hO
      refine ⟨hO.symm, hB.symm, ?_, ?_, ?_, ?_, ?_⟩
      · rw [← hA]
      · rw [← hA]
      · rw [← hA]
      · rw [← hA]
      · rw [← hA]
        exact heq

theorem Segment.append_fail (s : Segment) (r : Rec)
    (hm : s.index.mmap.length < s.index.size + entWidth) :
    (s.append r).2.2 = none := by
  unfold Segment.append
  dsimp only
  have hw : s.index.write (((s.nextOffset : Int) - (s.baseOffset : Int)).emod (2 ^ 32)).toNat
      (s.store.append (marshalRecord { r with offset := s.nextOffset })).2.2 = none := by
    rw [Index.write, if_pos]
    simp only [Index.isMaxed]
    exact decide_eq_true (by omega)
  rw [hw]

theorem newSegment_empty (b : Nat) (c : Config) :
    (newSegment [] [] b c).nextOffset = b ∧
    (newSegment [] [] b c).baseOffset = b ∧
    (newSegment [] [] b c).store = { file := [], size := 0 } ∧
    (newSegment [] [] b c).index.size = 0 ∧
    (newSegment [] [] b c).index.mmap.length = c.maxIndexBytes ∧
    (newSegment [] [] b c).config = c := by
  refine ⟨?_, rfl, rfl, rfl, ?_, rfl⟩
  · rw [newSegment]
    simp [newIndex, Index.read]
  · rw [newSegment]
    simp [newIndex]

theorem applyDefaults_pos (c : Config) :
    1 ≤ (applyDefaults c).maxStoreBytes ∧ 1 ≤ (applyDefaults c).maxIndexBytes := by
  rw [applyDefaults]
  constructor <;> dsimp only <;> split <;> omega

theorem Segment.append_components (s : Segment) (r : Rec) (o : Nat)
    (hC : (s.append r).2.2 = some o) :
    o = s.nextOffset ∧
    (s.append r).2.1 = { r with offset := s.nextOffset } ∧
    (s.append r).1.baseOffset = s.baseOffset ∧
    (s.append r).1.nextOffset = s.nextOffset + 1 ∧
    (s.append r).1.config = s.config ∧
    (s.append r).1.store
      = (s.store.append (marshalRecord { r with offset := s.nextOffset })).1 ∧
    s.index.write (((s.nextOffset : Int) - (s.baseOffset : Int)).emod (2 ^ 32)).toNat
        (s.store.append (marshalRecord { r with offset := s.nextOffset })).2.2
      = some (s.append r).1.index := by
  apply Segment.append_some s r (s.append r).1 (s.append r).2.1 o
  rw [← hC]

theorem Log.append_active_next (l l1 : Log) (r rm : Rec) (o : Nat)
    (h : l.append r = (l1, rm, some o)) :
    l1.segments.getLast?.map Segment.nextOffset = some (o + 1) ∧
    l1.config = l.config := by
  unfold Log.append at h
  cases hlast : l.segments.getLast? with
  | none =>
    rw [hlast] at h
    injection h with h1 h23
    injection h23 with h2 h3
    cases h3
  | some active =>
    rw [hlast] at h
    dsimp only at h
    revert h
    split
    · intro h
      injection h with hA hBC
      injection hBC with hB hC
      obtain ⟨ho, -, -, hnext, -, -, -⟩ := Segment.append_components _ r o hC
      constructor
      · rw [← hA]
        show ((l.segments ++ [_]).getLast?).map _ = _
        rw [List.getLast?_concat]
        show some _ = some (o + 1)
        rw [hnext, ho]
      · rw [← hA]
    · intro h
      injection h with hA hBC
      injection hBC with hB hC
      obtain ⟨ho, -, -, hnext, -, -, -⟩ := Segment.append_components _ r o hC
      constructor
      · rw [← hA]
        show ((l.segments.dropLast ++ [_]).getLast?).map _ = _
        rw [List.getLast?_concat]
        show some _ = some (o + 1)
        rw [hnext, ho]
      · rw [← hA]

theorem Log.append_offset (l l1 : Log) (r rm : Rec) (o : Nat) (a : Segment)
    (hlast : l.segments.getLast? = some a) (hn : 1 ≤ a.nextOffset)
    (h : l.append r = (l1, rm, some o)) :
    o = a.nextOffset := by
  unfold Log.append at h
  rw [hlast] at h
  dsimp only at h
  revert h
  split
  · intro h
    injection h with hA hBC
    injection hBC with hB hC
    obtain ⟨ho, -, -, -, -, -, -⟩ := Segment.append_components _ r o hC
    rw [ho, (newSegment_empty _ _).1, if_neg (by omega)]
    omega
  · intro h
    injection h with hA hBC
    injection hBC with hB hC
    obtain ⟨ho, -, -, -, -, -, -⟩ := Segment.append_components _ r o hC
    exact ho

theorem newSegment_fresh_isMaxed (b : Nat) (c2 : Config) :
    (newSegment [] [] b c2).isMaxed
      = (decide (c2.maxStoreBytes ≤ 0) || decide (c2.maxIndexBytes ≤ 0)
        || decide (c2.maxIndexBytes < 12)) := by
  obtain ⟨-, -, hstore, hisz, himl, hcfg⟩ := newSegment_empty b c2
  rw [Segment.isMaxed, hstore, hcfg, Index.isMaxed, hisz, himl]
  rfl

theorem range_map_shift (n k : Nat) :
    (List.range (k + 1)).map (fun i => n + i)
      = n :: (List.range k).map (fun i => n + 1 + i) := by
  rw [List.range_succ_eq_map, List.map_cons, List.map_map]
  have hfun : ((fun i => n + i) ∘ Nat.succ) = (fun i => n + 1 + i) := by
    funext i
    simp only [Function.comp_apply]
    omega
  rw [hfun]
  norm_num

theorem NewLog_first_offset (c : Config) (r : Rec) (l1 : Log) (rm : Rec) (o : Nat)
    (h : (NewLog c).append r = (l1, rm, some o)) :
    o = (applyDefaults c).initialOffset := by
  obtain ⟨hms, hmi⟩ := applyDefaults_pos c
  obtain ⟨cd, hcd⟩ : ∃ x, applyDefaults c = x := ⟨_, rfl⟩
  rw [hcd] at hms hmi ⊢
  obtain ⟨hnext, hbase, hstore, hisz, himl, hcfg⟩ :=
    newSegment_empty cd.initialOffset cd
  have hlast : (NewLog c).segments.getLast? =
      some (newSegment [] [] cd.initialOffset cd) := by
    rw [← hcd]
    exact rfl
  unfold Log.append at h
  rw [hlast] at h
  dsimp only at h
  revert h
  split
  · next hmx =>
    intro h
    injection h with hA hBC
    injection hBC with hB hC
    exfalso
    have hsmall : cd.maxIndexBytes < 12 := by
      have hx := hmx
      rw [newSegment_fresh_isMaxed] at hx
      simp only [Bool.or_eq_true, decide_eq_true_eq] at hx
      rcases hx with (hx | hx) | hx <;> omega
    obtain ⟨-, -, -, hisz2, himl2, -⟩ := newSegment_empty
      ((if (newSegment [] [] cd.initialOffset cd).nextOffset = 0 then 0
        else (newSegment [] [] cd.initialOffset cd).nextOffset - 1) + 1) (NewLog c).config
    have hfail := Segment.append_fail
      (newSegment [] []
        ((if (newSegment [] [] cd.initialOffset cd).nextOffset = 0 then 0
          else (newSegment [] [] cd.initialOffset cd).nextOffset - 1) + 1)
        (NewLog c).config) r
      (by
        rw [hisz2, himl2, show entWidth = 12 from rfl]
        show (NewLog c).config.maxIndexBytes < 0 + 12
        have hcfg2 : (NewLog c).config = cd := by
          rw [← hcd]
          exact rfl
        rw [hcfg2]
        omega)
    rw [hfail] at hC
    cases hC
  · intro h
    injection h with hA hBC
    injection hBC with hB hC
    obtain ⟨ho, -, -, -, -, -, -⟩ := Segment.append_components _ r o hC
    rw [ho, hnext]

theorem Log.appendAll_offsets (rs : List Rec) :
    ∀ (l : Log) (n : Nat) (l2 : Log) (offs : List Nat),
      l.segments.getLast?.map Segment.nextOffset = some n →
      1 ≤ n →
      l.appendAll rs = some (l2, offs) →
      offs = (List.range rs.length).map (fun i => n + i) := by
  induction rs with
  | nil =>
    intro l n l2 offs hlast hn hw
    rw [Log.appendAll] at hw
    cases hw
    simp
  | cons r rs ih =>
    intro l n l2 offs hlast hn hw
    rw [Log.appendAll] at hw
    rcases happ : l.append r with ⟨l1, rm, opt⟩
    rw [happ] at hw
    cases opt with
    | none => cases hw
    | some off =>
      dsimp only at hw
      cases ha : l.segments.getLast? with
      | none => rw [ha] at hlast; cases hlast
      | some a =>
        rw [ha] at hlast
        have han : a.nextOffset = n := by simpa using hlast
        have ho : off = n := by
          rw [Log.append_offset l l1 r rm off a ha (by omega) happ, han]
        obtain ⟨hact, -⟩ := Log.append_active_next l l1 r rm off happ
        cases hrec : l1.appendAll rs with
        | none => rw [hrec] at hw; cases hw
        | some p =>
          rcases p with ⟨l2x, offsx⟩
          rw [hrec] at hw
          injection hw with hw2
          injection hw2 with hwl hwo
          have hoffsx := ih l1 (off + 1) l2x offsx hact (by omega) hrec
          rw [← hwo, hoffsx, ho]
          simp only [List.length_cons]
          rw [range_map_shift]

/-! ### Claim C2: gap-free monotonic offsets -/

/-- C2: appending N records to a fresh log with initial offset `initial`
returns, when all appends succeed, exactly the offsets
`initial, initial+1, …, initial+N−1` in order; moreover on ANY log state
— including appends that rotate in a new segment because the active one
is maxed — two consecutive successful appends return consecutive
offsets, so the assigned offset sequence is strictly increasing with no
gaps across the lifetime of the log. -/
theorem C2_gap_free_offsets (c : Config) (rs : List Rec) (l2 : Log) (offs : List Nat)
    (h : (NewLog c).appendAll rs = some (l2, offs)) :
    offs = (List.range rs.length).map (fun i => (applyDefaults c).initialOffset + i) ∧
    (∀ (la lb lc : Log) (r1 r2 r1m r2m : Rec) (o1 o2 : Nat),
      la.append r1 = (lb, r1m, some o1) →
      lb.append r2 = (lc, r2m, some o2) →
      o2 = o1 + 1) := by
  constructor
  · cases rs with
    | nil =>
      rw [Log.appendAll] at h
      cases h
      simp
    | cons r rs =>
      rw [Log.appendAll] at h
      rcases happ : (NewLog c).append r with ⟨l1, rm, opt⟩
      rw [happ] at h
      cases opt with
      | none => cases h
      | some off =>
        dsimp only at h
        have ho : off = (applyDefaults c).initialOffset :=
          NewLog_first_offset c r l1 rm off happ
        obtain ⟨hact, -⟩ := Log.append_active_next _ _ _ _ _ happ
        cases hrec : l1.appendAll rs with
        | none => rw [hrec] at h; cases h
        | some p =>
          rcases p with ⟨l2x, offsx⟩
          rw [hrec] at h
          injection h with h2
          injection h2 with hl ho2
          have hoffsx := Log.appendAll_offsets rs l1 (off + 1) l2x offsx hact
            (by omega) hrec
          rw [← ho2, hoffsx, ho]
          simp only [List.length_cons]
          rw [range_map_shift]
  · intro la lb lc r1 r2 r1m r2m o1 o2 h1 h2
    obtain ⟨hact, -⟩ := Log.append_active_next la lb r1 r1m o1 h1
    cases hlastb : lb.segments.getLast? with
    | none => rw [hlastb] at hact; cases hact
    | some a =>
      rw [hlastb] at hact
      have han : a.nextOffset = o1 + 1 := by simpa using hact
      have ho2 := Log.append_offset lb lc r2 r2m o2 a hlastb (by omega) h2
      omega

/-- Witness for C2: two appends to a fresh log with initial offset 0
return offsets `[0, 1]`. -/
theorem C2_witness :
    (NewLog ⟨1024, 24, 0⟩).appendAll [⟨0, 0, 0, [1]⟩, ⟨0, 0, 0, [2]⟩]
        = some (twoRecordLog, [0, 1]) ∧
    ([0, 1] : List Nat)
      = (List.range ([(⟨0, 0, 0, [1]⟩ : Rec), ⟨0, 0, 0, [2]⟩]).length).map
          (fun i => (applyDefaults ⟨1024, 24, 0⟩).initialOffset + i) :=
  ⟨rfl, (C2_gap_free_offsets ⟨1024, 24, 0⟩ [⟨0, 0, 0, [1]⟩, ⟨0, 0, 0, [2]⟩]
    twoRecordLog [0, 1] rfl).1⟩

/-! ### Well-formedness for the append/read round trip (claim C1)

These predicates hold of every state the Go code can reach under its
`uint64`/`uint32` arithmetic; in the `Nat` model they are carried as
hypotheses. -/

/-- Field bounds of a well-formed `api.Record` (`uint64`/`uint32`
fields, value length within `uint32`). -/
def RecWF (r : Rec) : Prop :=
  r.term < 2 ^ 64 ∧ r.rtype < 2 ^ 32 ∧ r.value.length < 2 ^ 32

/-- Well-formedness of a segment: offsets fit `uint64` (strictly, so an
append cannot overflow), the entry count fits `uint32`, the index holds
exactly one entry per record, and the store's `size` field equals its
written byte length (which fits `uint64`). -/
def SegWF (s : Segment) : Prop :=
  s.baseOffset ≤ s.nextOffset ∧
  s.nextOffset + 1 < 2 ^ 64 ∧
  s.nextOffset - s.baseOffset + 1 < 2 ^ 32 ∧
  s.index.size = 12 * (s.nextOffset - s.baseOffset) ∧
  s.store.size = s.store.file.length ∧
  s.store.size < 2 ^ 64

/-- Well-formedness of a log: a nonempty segment list whose active
(last) segment is well formed and has the largest `nextOffset`. -/
def LogWF (l : Log) : Prop :=
  match l.segments.getLast? with
  | none => False
  | some a => SegWF a ∧ ∀ s ∈ l.segments, s.nextOffset ≤ a.nextOffset

theorem relOffset_eq (o b : Nat) (hb : b ≤ o) (ho : o + 1 < 2 ^ 64)
    (hrel : o - b < 2 ^ 63) :
    toInt64 (((o : Int) - (b : Int)).emod (2 ^ 64)).toNat = ((o - b : Nat) : Int) := by
  have h0 : (o : Int) - (b : Int) = ((o - b : Nat) : Int) := by omega
  have h2 : (((o - b : Nat) : Int)).emod (2 ^ 64) = ((o - b : Nat) : Int) :=
    Int.emod_eq_of_lt (by omega) (by omega)
  have h3 : (((o - b : Nat) : Int)).toNat = o - b := by simp
  rw [h0, h2, h3, toInt64, if_pos (by omega)]
  have h4 : (o - b) % 2 ^ 64 = o - b := Nat.mod_eq_of_lt (by omega)
  rw [h4]

theorem Store.read_eq (st : Store) (pos : Nat) :
    st.read pos
      = if pos + lenWidth ≤ st.file.length then
          (if pos + lenWidth + beVal (readAt st.file pos lenWidth) ≤ st.file.length then
            some (readAt st.file (pos + lenWidth) (beVal (readAt st.file pos lenWidth)))
          else none)
        else none := rfl

theorem Store.append_file (st : Store) (p : Bytes) :
    (st.append p).1.file = st.file ++ (u64be p.length ++ p) ∧
    (st.append p).1.file.length = st.file.length + (8 + p.length) ∧
    (st.append p).2.2 = st.size := by
  refine ⟨by simp [Store.append], ?_, rfl⟩
  simp [Store.append, u64be]
  omega

theorem Store.append_read_back (st : Store) (p : Bytes)
    (hsz : st.size = st.file.length) (hlen : p.length < 2 ^ 64) :
    (st.append p).1.read st.size = some p := by
  obtain ⟨hfile, hflen, -⟩ := Store.append_file st p
  have h8 : readAt (st.append p).1.file st.size lenWidth = u64be p.length := by
    rw [hfile, hsz, readAt_append_start st.file (u64be p.length ++ p) lenWidth,
      show lenWidth = 8 from rfl]
    exact List.take_left' (u64be_length p.length)
  have hval : beVal (readAt (st.append p).1.file st.size lenWidth) = p.length := by
    rw [h8, beVal_u64be]
    omega
  have hp : readAt (st.append p).1.file (st.size + lenWidth) p.length = p := by
    have hassoc : (st.append p).1.file = (st.file ++ u64be p.length) ++ p := by
      rw [hfile, List.append_assoc]
    have hlen2 : (st.file ++ u64be p.length).length = st.size + lenWidth := by
      simp [u64be, hsz, lenWidth]
    rw [hassoc, ← hlen2, readAt_append_start, List.take_length]
  rw [Store.read_eq, if_pos (by simp only [hflen, hsz, lenWidth]; omega), hval,
    if_pos (by simp only [hflen, hsz, lenWidth]; omega), hp]

theorem Store.read_preserved_by_append (st : Store) (p : Bytes) (pos : Nat) (b : Bytes)
    (h : st.read pos = some b) : (st.append p).1.read pos = some b := by
  obtain ⟨hfile, hflen, -⟩ := Store.append_file st p
  rw [Store.read_eq] at h
  by_cases h8 : pos + lenWidth ≤ st.file.length
  · rw [if_pos h8] at h
    by_cases hsz : pos + lenWidth + beVal (readAt st.file pos lenWidth) ≤ st.file.length
    · rw [if_pos hsz] at h
      have hr8 : readAt (st.append p).1.file pos lenWidth = readAt st.file pos lenWidth := by
        rw [hfile]
        exact readAt_append_left _ _ _ _ (by omega)
      have hrp : readAt (st.append p).1.file (pos + lenWidth)
            (beVal (readAt st.file pos lenWidth))
          = readAt st.file (pos + lenWidth) (beVal (readAt st.file pos lenWidth)) := by
        rw [hfile]
        exact readAt_append_left _ _ _ _ (by omega)
      rw [Store.read_eq, if_pos (by omega), hr8, if_pos (by omega), hrp]
      exact h
    · rw [if_neg hsz] at h
      cases h
  · rw [if_neg h8] at h
    cases h

theorem Index.readEntryNum_stable (i i2 : Index) (inp : Int) (hinp : inp ≠ -1) :
    i2.readEntryNum inp = i.readEntryNum inp := by
  rw [Index.readEntryNum, Index.readEntryNum, if_neg hinp, if_neg hinp]

theorem Index.read_write_preserved (i i2 : Index) (w pw : Nat) (inp : Int) (e : Nat × Nat)
    (hw : i.write w pw = some i2) (hinp : inp ≠ -1) (h : i.read inp = some e) :
    i2.read inp = some e := by
  obtain ⟨hsz, hlen, -, -⟩ := Index.write_some i i2 w pw hw
  rw [Index.read] at h
  by_cases h0 : i.size = 0
  · rw [if_pos h0] at h
    cases h
  · rw [if_neg h0] at h
    by_cases hb : i.size < i.readEntryNum inp * entWidth + entWidth
    · rw [if_pos hb] at h
      cases h
    · rw [if_neg hb] at h
      have hb2 : i.readEntryNum inp * 12 + 12 ≤ i.size := by
        rw [show entWidth = 12 from rfl] at hb
        omega
      have hp1 := Index.write_preserves i i2 w pw
        (i.readEntryNum inp * entWidth) offWidth hw (by
          rw [show entWidth = 12 from rfl, show offWidth = 4 from rfl]
          omega)
      have hp2 := Index.write_preserves i i2 w pw
        (i.readEntryNum inp * entWidth + offWidth) posWidth hw (by
          rw [show entWidth = 12 from rfl, show offWidth = 4 from rfl,
            show posWidth = 8 from rfl]
          omega)
      rw [Index.read, if_neg (by rw [hsz, show entWidth = 12 from rfl]; omega),
        Index.readEntryNum_stable i i2 inp hinp,
        if_neg (by rw [hsz, show entWidth = 12 from rfl]; omega), hp1, hp2]
      exact h

theorem relOffset_ne_neg_one (o b : Nat) (hb : b ≤ o) (ho : o + 1 < 2 ^ 64) :
    toInt64 (((o : Int) - (b : Int)).emod (2 ^ 64)).toNat ≠ -1 := by
  have h0 : (o : Int) - (b : Int) = ((o - b : Nat) : Int) := by omega
  have h2 : (((o - b : Nat) : Int)).emod (2 ^ 64) = ((o - b : Nat) : Int) :=
    Int.emod_eq_of_lt (by omega) (by omega)
  have h3 : (((o - b : Nat) : Int)).toNat = o - b := by simp
  rw [h0, h2, h3, toInt64]
  have h4 : (o - b) % 2 ^ 64 = o - b := Nat.mod_eq_of_lt (by omega)
  rw [h4]
  split
  · omega
  · omega

theorem Segment.read_preserved_under_append (s : Segment) (r : Rec) (o : Nat) (rec : Rec)
    (ho : o + 1 < 2 ^ 64) (hbase : s.baseOffset ≤ o)
    (hread : s.read o = some rec) :
    (s.append r).1.read o = some rec := by
  have hinp := relOffset_ne_neg_one o s.baseOffset hbase ho
  rw [Segment.read] at hread
  unfold Segment.append
  dsimp only
  split
  · rw [Segment.read]
    dsimp only
    cases hidx : s.index.read
        (toInt64 (((o : Int) - (s.baseOffset : Int)).emod (2 ^ 64)).toNat) with
    | none =>
      rw [hidx] at hread
      cases hread
    | some e =>
      rw [hidx] at hread
      dsimp only at hread
      cases hst : s.store.read e.2 with
      | none =>
        rw [hst] at hread
        cases hread
      | some b =>
        rw [hst] at hread
        dsimp only
        rw [Store.read_preserved_by_append s.store _ e.2 b hst]
        exact hread
  · next i2 hwsome =>
    rw [Segment.read]
    dsimp only
    cases hidx : s.index.read
        (toInt64 (((o : Int) - (s.baseOffset : Int)).emod (2 ^ 64)).toNat) with
    | none =>
      rw [hidx] at hread
      cases hread
    | some e =>
      rw [hidx] at hread
      dsimp only at hread
      cases hst : s.store.read e.2 with
      | none =>
        rw [hst] at hread
        cases hread
      | some b =>
        rw [hst] at hread
        rw [Index.read_write_preserved s.index i2 _ _ _ e hwsome hinp hidx]
        dsimp only
        rw [Store.read_preserved_by_append s.store _ e.2 b hst]
        exact hread

theorem Segment.append_base_next (s : Segment) (r : Rec) :
    (s.append r).1.baseOffset = s.baseOffset ∧
    s.nextOffset ≤ (s.append r).1.nextOffset := by
  unfold Segment.append
  dsimp only
  split
  · exact ⟨rfl, Nat.le_refl _⟩
  · exact ⟨rfl, Nat.le_succ _⟩

theorem Log.read_append_preserved (l l1 : Log) (r rm : Rec) (oo : Option Nat)
    (o : Nat) (rec : Rec)
    (ho : o + 1 < 2 ^ 64)
    (hread : l.read o = Except.ok rec)
    (happ : l.append r = (l1, rm, oo)) :
    l1.read o = Except.ok rec := by
  rw [Log.read] at hread
  cases hfind : l.segments.find?
      (fun s => decide (s.baseOffset ≤ o) && decide (o < s.nextOffset)) with
  | none =>
    rw [hfind] at hread
    cases hread
  | some sfound =>
    rw [hfind] at hread
    dsimp only at hread
    cases hsr : sfound.read o with
    | none =>
      rw [hsr] at hread
      cases hread
    | some rec2 =>
      rw [hsr] at hread
      injection hread with hrec
      subst hrec
      have hpred := List.find?_some hfind
      simp only [Bool.and_eq_true, decide_eq_true_eq] at hpred
      unfold Log.append at happ
      cases hlast : l.segments.getLast? with
      | none =>
        rw [hlast] at happ
        injection happ with hA hBC
        rw [← hA, Log.read, hfind]
        dsimp only
        rw [hsr]
      | some active =>
        rw [hlast] at happ
        dsimp only at happ
        have hne : l.segments ≠ [] := by
          intro hn
          rw [hn] at hlast
          cases hlast
        have hgl : l.segments.getLast hne = active :=
          Option.some.inj ((List.getLast?_eq_getLast_of_ne_nil hne).symm.trans hlast)
        have hdecomp : l.segments.dropLast ++ [active] = l.segments := by
          rw [← hgl]
          exact List.dropLast_append_getLast hne
        revert happ
        split
        · intro happ
          injection happ with hA hBC
          rw [← hA, Log.read]
          dsimp only
          rw [List.find?_append, hfind, Option.or_some]
          dsimp only
          rw [hsr]
        · intro happ
          injection happ with hA hBC
          rw [← hA, Log.read]
          dsimp only
          rw [List.find?_append]
          rw [← hdecomp, List.find?_append] at hfind
          cases hfd : l.segments.dropLast.find?
              (fun s => decide (s.baseOffset ≤ o) && decide (o < s.nextOffset)) with
          | some s2 =>
            rw [hfd, Option.or_some] at hfind
            rw [Option.or_some]
            dsimp only
            injection hfind with hs2
            subst hs2
            rw [hsr]
          | none =>
            rw [hfd, Option.none_or] at hfind
            rw [Option.none_or]
            obtain ⟨hab, han⟩ := Segment.append_base_next active r
            cases hpa : (decide (active.baseOffset ≤ o) && decide (o < active.nextOffset)) with
            | false =>
              have hfa : List.find? (fun s => decide (s.baseOffset ≤ o)
                  && decide (o < s.nextOffset)) [active] = none := by
                simp only [List.find?]
                rw [hpa]
              rw [hfa] at hfind
              cases hfind
            | true =>
              have hfa : List.find? (fun s => decide (s.baseOffset ≤ o)
                  && decide (o < s.nextOffset)) [active] = some active := by
                simp only [List.find?]
                rw [hpa]
              rw [hfa] at hfind
              injection hfind with hsact
              simp only [Bool.and_eq_true, decide_eq_true_eq] at hpa
              have hpa2 : (decide ((active.append r).1.baseOffset ≤ o)
                  && decide (o < (active.append r).1.nextOffset)) = true := by
                simp only [Bool.and_eq_true, decide_eq_true_eq, hab]
                exact ⟨hpa.1, by omega⟩
              have hfa2 : List.find? (fun s => decide (s.baseOffset ≤ o)
                  && decide (o < s.nextOffset)) [(active.append r).1]
                  = some (active.append r).1 := by
                simp only [List.find?]
                rw [hpa2]
              rw [hfa2]
              dsimp only
              rw [Segment.read_preserved_under_append active r o rec2 ho hpa.1
                (by rw [hsact]; exact hsr)]

theorem Log.read_appendAll_preserved (rs : List Rec) :
    ∀ (l l2 : Log) (offs : List Nat) (o : Nat) (rec : Rec),
      o + 1 < 2 ^ 64 →
      l.read o = Except.ok rec →
      l.appendAll rs = some (l2, offs) →
      l2.read o = Except.ok rec := by
  induction rs with
  | nil =>
    intro l l2 offs o rec ho hr hw
    rw [Log.appendAll] at hw
    cases hw
    exact hr
  | cons r rs ih =>
    intro l l2 offs o rec ho hr hw
    rw [Log.appendAll] at hw
    rcases happ : l.append r with ⟨l1, rm, opt⟩
    rw [happ] at hw
    cases opt with
    | none => cases hw
    | some off =>
      dsimp only at hw
      cases hrec2 : l1.appendAll rs with
      | none => rw [hrec2] at hw; cases hw
      | some p =>
        rcases p with ⟨l2x, offsx⟩
        rw [hrec2] at hw
        injection hw with hw2
        injection hw2 with hwl hwo
        rw [← hwl]
        exact ih l1 l2x offsx o rec ho
          (Log.read_append_preserved l l1 r rm (some off) o rec ho hr happ) hrec2

theorem Segment.append_then_read (s : Segment) (r : Rec) (o : Nat)
    (hWF : SegWF s) (hrec : RecWF r)
    (hC : (s.append r).2.2 = some o) :
    (s.append r).1.read o = some { r with offset := o } := by
  obtain ⟨hoe, hrm, hbase, hnext, hcfg, hst, hidx⟩ := Segment.append_components s r o hC
  obtain ⟨hble, hn64, hcnt, hiz, hssz, hs64⟩ := hWF
  obtain ⟨ht64, hty, hv⟩ := hrec
  have hplen : (marshalRecord { r with offset := s.nextOffset }).length
      = 20 + r.value.length := marshalRecord_length _
  have hp64 : (marshalRecord { r with offset := s.nextOffset }).length < 2 ^ 64 := by
    rw [hplen]
    omega
  have hsread : (s.store.append (marshalRecord { r with offset := s.nextOffset })).1.read
        s.store.size
      = some (marshalRecord { r with offset := s.nextOffset }) :=
    Store.append_read_back s.store _ hssz hp64
  obtain ⟨hisz1, himl1, hie1, hie2⟩ := Index.write_some s.index (s.append r).1.index
    (((s.nextOffset : Int) - (s.baseOffset : Int)).emod (2 ^ 32)).toNat
    (s.store.append (marshalRecord { r with offset := s.nextOffset })).2.2 hidx
  have hpos : (s.store.append (marshalRecord { r with offset := s.nextOffset })).2.2
      = s.store.size := rfl
  rw [hpos] at hie2
  have hrel : toInt64 (((o : Int) - ((s.append r).1.baseOffset : Int)).emod (2 ^ 64)).toNat
      = (((o - s.baseOffset : Nat)) : Int) := by
    rw [hbase]
    exact relOffset_eq o s.baseOffset (by omega) (by omega) (by omega)
  rw [Segment.read, hrel]
  have hinz : (s.append r).1.index.readEntryNum (((o - s.baseOffset : Nat)) : Int)
      = o - s.baseOffset := by
    rw [Index.readEntryNum, if_neg (by omega)]
    have he : (((o - s.baseOffset : Nat) : Int)) % (2 ^ 32 : Int)
        = ((o - s.baseOffset : Nat) : Int) :=
      Int.emod_eq_of_lt (by omega) (by omega)
    rw [he]
    simp
  have h12 : (o - s.baseOffset) * 12 = s.index.size := by
    rw [hiz, hoe]
    ring
  have hiread : (s.append r).1.index.read (((o - s.baseOffset : Nat)) : Int)
      = some ((((s.nextOffset : Int) - (s.baseOffset : Int)).emod (2 ^ 32)).toNat % 2 ^ 32,
              s.store.size % 2 ^ 64) := by
    rw [Index.read, if_neg (by rw [hisz1, show entWidth = 12 from rfl]; omega), hinz,
      if_neg (by rw [hisz1, show entWidth = 12 from rfl, ← h12]; omega),
      show entWidth = 12 from rfl, show offWidth = 4 from rfl, show posWidth = 8 from rfl,
      h12]
    rw [show offWidth = 4 from rfl] at hie1
    rw [show offWidth = 4 from rfl, show posWidth = 8 from rfl] at hie2
    rw [hie1, hie2, beVal_u32be, beVal_u64be]
  rw [hiread]
  dsimp only
  rw [Nat.mod_eq_of_lt hs64, hst, hsread]
  dsimp only
  rw [unmarshalRecord_marshalRecord _ (by dsimp only; omega) (by dsimp only; exact ht64)
    (by dsimp only; exact hty), hoe]

theorem Log.append_read (l l1 : Log) (r rm : Rec) (o : Nat)
    (hWF : LogWF l) (hrec : RecWF r)
    (happ : l.append r = (l1, rm, some o)) :
    l1.read o = Except.ok { r with offset := o } ∧ o + 1 < 2 ^ 64 := by
  rw [LogWF] at hWF
  cases hlast : l.segments.getLast? with
  | none =>
    rw [hlast] at hWF
    exact hWF.elim
  | some a =>
    rw [hlast] at hWF
    obtain ⟨hsa, hmax⟩ := hWF
    unfold Log.append at happ
    rw [hlast] at happ
    dsimp only at happ
    revert happ
    split
    · next hmx =>
      intro happ
      injection happ with hA hBC
      injection hBC with hB hC
      obtain ⟨hoe, hrm2, hbase, hnext, -, -, -⟩ := Segment.append_components _ r o hC
      obtain ⟨hsa1, hsa2, hsa3, hsa4, hsa5, hsa6⟩ := hsa
      obtain ⟨hx1, hx2, hx3, hx4, hx5, hx6⟩ := newSegment_empty
        ((if a.nextOffset = 0 then 0 else a.nextOffset - 1) + 1) l.config
      have ho : o = (if a.nextOffset = 0 then 0 else a.nextOffset - 1) + 1 := by
        rw [hoe, hx1]
      have hoa : a.nextOffset ≤ o ∧ o + 1 < 2 ^ 64 := by
        rw [ho]
        split <;> omega
      have hswfB : SegWF (newSegment [] []
          ((if a.nextOffset = 0 then 0 else a.nextOffset - 1) + 1) l.config) := by
        refine ⟨by rw [hx1, hx2], by rw [hx1, ← ho]; exact hoa.2, by rw [hx1, hx2]; omega,
          by rw [hx4, hx1, hx2]; omega, by rw [hx3]; rfl, by rw [hx3]; norm_num⟩
      have hread := Segment.append_then_read _ r o hswfB hrec hC
      refine ⟨?_, hoa.2⟩
      rw [← hA, Log.read]
      dsimp only
      rw [List.find?_append]
      have hfn : l.segments.find?
          (fun s => decide (s.baseOffset ≤ o) && decide (o < s.nextOffset)) = none := by
        rw [List.find?_eq_none]
        intro s hs
        simp only [Bool.and_eq_true, decide_eq_true_eq, not_and]
        intro hb1
        have hle := hmax s hs
        omega
      rw [hfn, Option.none_or]
      have hpb : (decide (((newSegment [] []
            ((if a.nextOffset = 0 then 0 else a.nextOffset - 1) + 1) l.config).append r).1.baseOffset ≤ o)
          && decide (o < ((newSegment [] []
            ((if a.nextOffset = 0 then 0 else a.nextOffset - 1) + 1) l.config).append r).1.nextOffset))
          = true := by
        simp only [Bool.and_eq_true, decide_eq_true_eq]
        rw [hbase, hx2, hnext, hx1]
        omega
      have hfb : List.find?
          (fun s => decide (s.baseOffset ≤ o) && decide (o < s.nextOffset))
          [((newSegment [] []
            ((if a.nextOffset = 0 then 0 else a.nextOffset - 1) + 1) l.config).append r).1]
          = some ((newSegment [] []
            ((if a.nextOffset = 0 then 0 else a.nextOffset - 1) + 1) l.config).append r).1 := by
        simp only [List.find?]
        rw [hpb]
      rw [hfb]
      dsimp only
      rw [hread]
    · next hmx =>
      intro happ
      injection happ with hA hBC
      injection hBC with hB hC
      obtain ⟨hoe, hrm2, hbase, hnext, -, -, -⟩ := Segment.append_components a r o hC
      have hsa2 := hsa.2.1
      have hsa1 := hsa.1
      have hread := Segment.append_then_read a r o hsa hrec hC
      refine ⟨?_, by omega⟩
      rw [← hA, Log.read]
      dsimp only
      rw [List.find?_append]
      have hfn : l.segments.dropLast.find?
          (fun s => decide (s.baseOffset ≤ o) && decide (o < s.nextOffset)) = none := by
        rw [List.find?_eq_none]
        intro s hs
        simp only [Bool.and_eq_true, decide_eq_true_eq, not_and]
        intro hb1
        have hle := hmax s ((List.dropLast_sublist l.segments).subset hs)
        omega
      rw [hfn, Option.none_or]
      have hpb : (decide ((a.append r).1.baseOffset ≤ o)
          && decide (o < (a.append r).1.nextOffset)) = true := by
        simp only [Bool.and_eq_true, decide_eq_true_eq]
        rw [hbase, hnext]
        omega
      have hfb : List.find?
          (fun s => decide (s.baseOffset ≤ o) && decide (o < s.nextOffset))
          [(a.append r).1] = some (a.append r).1 := by
        simp only [List.find?]
        rw [hpb]
      rw [hfb]
      dsimp only
      rw [hread]

/-- C1: Append/Read round-trip — for every record R successfully appended to a
well-formed Log at returned offset o, Log.read o (immediately, and also after any
further sequence of successful appends, with no intervening Truncate or Reset)
returns a record whose value bytes equal R's value and whose offset field equals o
(term and type are likewise preserved). -/
theorem C1_append_read_roundtrip (l l1 l2 : Log) (r rm : Rec) (o : Nat)
    (rs : List Rec) (offs : List Nat)
    (hWF : LogWF l) (hrec : RecWF r)
    (happ : l.append r = (l1, rm, some o))
    (hmore : l1.appendAll rs = some (l2, offs)) :
    l1.read o = Except.ok { r with offset := o } ∧
    l2.read o = Except.ok { r with offset := o } := by
  obtain ⟨h1, ho⟩ := Log.append_read l l1 r rm o hWF hrec happ
  exact ⟨h1, Log.read_appendAll_preserved rs l1 l2 offs o _ ho h1 hmore⟩

/-- C1 witness: a fresh log with `maxIndexBytes = 24`; appending the record
`⟨0, 0, 0, [7]⟩` succeeds at offset 0 and reading offset 0 back returns it. -/
theorem C1_witness :
    ((NewLog ⟨1024, 24, 0⟩).append ⟨0, 0, 0, [7]⟩).1.read 0
      = Except.ok ⟨0, 0, 0, [7]⟩ :=
  (C1_append_read_roundtrip (NewLog ⟨1024, 24, 0⟩)
    ((NewLog ⟨1024, 24, 0⟩).append ⟨0, 0, 0, [7]⟩).1
    ((NewLog ⟨1024, 24, 0⟩).append ⟨0, 0, 0, [7]⟩).1
    ⟨0, 0, 0, [7]⟩ ((NewLog ⟨1024, 24, 0⟩).append ⟨0, 0, 0, [7]⟩).2.1
    0 [] []
    ⟨⟨by decide, by decide, by decide, by decide, by decide, by decide⟩, by decide⟩
    ⟨by decide, by decide, by decide⟩
    rfl rfl).1

end Proglog
